import Mathlib

/-!
# ncaacheckver: a verification development

Shallow embedding of `ncaacheckver.go` (configuration resolution, makefile
locator, makefile scan with the extraction pattern, and the sequence of git
commands issued by `main`), followed by theorems about it.

Go strings are modelled by Lean `String`s (valid UTF-8 text); the regular
expression engine works on the list of characters of a string, as Go's
`regexp` works on the runes of its input.
-/

namespace NcaaCheckver

/-! ## Regular expressions (the fragment of `regexp/syntax` used by the pattern) -/

/-- Parse tree of a regular expression, after Go's `regexp/syntax`:
literal rune sequence, character class given by its ranges, concatenation,
alternation, greedy one-or-more, and numbered capture group. -/
inductive Regex where
  | literal : List Char → Regex
  | charClass : List (Char × Char) → Regex
  | concat : Regex → Regex → Regex
  | alternate : Regex → Regex → Regex
  | plus : Regex → Regex
  | capture : Nat → Regex → Regex

/-- Capture registers: group number and captured text, most recent first. -/
abbrev Caps := List (Nat × List Char)

/-- A thread of the backtracking matcher: the input still to be read and the
captures recorded so far. -/
abbrev Thread := List Char × Caps

/-- Remove the literal `lit` from the front of `s`, if it is there. -/
def stripLiteral : List Char → List Char → Option (List Char)
  | [], s => some s
  | _ :: _, [] => none
  | c :: cs, x :: xs => if x = c then stripLiteral cs xs else none

/-- Membership of a rune in a character class given by inclusive ranges. -/
def inClass (ranges : List (Char × Char)) (c : Char) : Bool :=
  ranges.any fun r => decide (r.1.toNat ≤ c.toNat) && decide (c.toNat ≤ r.2.toNat)

/-- Greedy repetition of `step`, one or more times: after each iteration the
longer continuations are preferred to stopping. `fuel` bounds the number of
iterations. -/
def plusLoop (step : List Char → Caps → List Thread) : Nat → List Char → Caps → List Thread
  | 0, _, _ => []
  | fuel + 1, s, cs =>
    (step s cs).flatMap fun t => plusLoop step fuel t.1 t.2 ++ [t]

/-- All ways of matching `re` at the front of `s`, in the priority order of Go's
leftmost-first (Perl-like) semantics: the head of the list is the match the
engine reports. A capture group records the text its body consumed. -/
def Regex.run : Regex → List Char → Caps → List Thread
  | .literal l, s, cs =>
    match stripLiteral l s with
    | some r => [(r, cs)]
    | none => []
  | .charClass rs, s, cs =>
    match s with
    | c :: r => if inClass rs c then [(r, cs)] else []
    | [] => []
  | .concat a b, s, cs => (a.run s cs).flatMap fun t => b.run t.1 t.2
  | .alternate a b, s, cs => a.run s cs ++ b.run s cs
  | .plus a, s, cs => plusLoop a.run (s.length + 1) s cs
  | .capture i a, s, cs =>
    (a.run s cs).map fun t => (t.1, (i, s.take (s.length - t.1.length)) :: t.2)

/-- Text of capture group `i`; the empty string when the group did not take part. -/
def capText (cs : Caps) (i : Nat) : String :=
  match cs.lookup i with
  | some t => String.mk t
  | none => ""

/-- Leftmost match: the first start position at which `re` matches, with the
preferred thread there. Returns the input from the match start on and the thread. -/
def search (re : Regex) : List Char → Option (List Char × Thread)
  | [] =>
    match re.run [] [] with
    | t :: _ => some ([], t)
    | [] => none
  | c :: s =>
    match re.run (c :: s) [] with
    | t :: _ => some (c :: s, t)
    | [] => search re s

/-- The slice returned for one match: whole match, then groups `1..ngroups`. -/
def submatch (ngroups : Nat) (start : List Char) (t : Thread) : List String :=
  String.mk (start.take (start.length - t.1.length)) ::
    (List.range ngroups).map fun i => capText t.2 (i + 1)

/-- Successive non-overlapping leftmost matches, as `FindAllStringSubmatch(s, -1)`
collects them. After a non-empty match the search resumes at its end; after an
empty one it resumes one rune further. -/
def findAllLoop (re : Regex) (ngroups : Nat) : Nat → List Char → List (List String)
  | 0, _ => []
  | fuel + 1, s =>
    match search re s with
    | none => []
    | some (start, t) =>
      if t.1.length < start.length then
        submatch ngroups start t :: findAllLoop re ngroups fuel t.1
      else
        match t.1 with
        | [] => [submatch ngroups start t]
        | _ :: r => submatch ngroups start t :: findAllLoop re ngroups fuel r

/-- Model of `re.FindAllStringSubmatch(s, -1)`. -/
def findAllStringSubmatch (re : Regex) (ngroups : Nat) (s : String) : List (List String) :=
  findAllLoop re ngroups (s.data.length + 1) s.data

/-- The bracket expression `[A-Za-z0-9.-_]` of the pattern. Each of `A-Z`, `a-z`,
`0-9` and `.-_` is a range; the last one runs from `.` (U+002E) to `_` (U+005F). -/
def valueClass : List (Char × Char) :=
  [('A', 'Z'), ('a', 'z'), ('0', '9'), ('.', '_')]

/-- The extraction pattern compiled in `main`:
`\[download\]\[(branch|tag)\] \= "([A-Za-z0-9.-_]+)"`. -/
def pattern : Regex :=
  .concat (.literal "[download][".data)
    (.concat (.capture 1 (.alternate (.literal "branch".data) (.literal "tag".data)))
      (.concat (.literal "] = \"".data)
        (.concat (.capture 2 (.plus (.charClass valueClass)))
          (.literal "\"".data))))

/-- The double quote character, U+0022. -/
abbrev dquote : Char := Char.ofNat 34

/-- Number of capture groups of `pattern`. -/
def patternGroups : Nat := 2

/-! ## Configuration (`optionsMap`, `init`, `applyEnvOptions`) -/

/-- The three option variables `siteRepoOpt`, `siteMakeOpt`, `siteBranchOpt`. -/
structure Options where
  siteRepoOpt : String
  siteMakeOpt : String
  siteBranchOpt : String
  deriving DecidableEq, Repr

/-- Entry `optionsMap[name]["default"]`; `homeDir` is `usr.HomeDir`. A name that is
not a key of the map yields the empty string, as a Go map lookup does. -/
def optionDefault (homeDir : String) (name : String) : String :=
  if name = "site-repo" then homeDir ++ "/Repos/ncaa-barcelona"
  else if name = "site-makefile" then "barcelona.make"
  else if name = "site-branch" then "master"
  else ""

/-- What the command line supplies: for each option variable the value of the
last flag bound to it (`--site-repo`/`-r`, `--site-makefile`, `--site-branch`/`-b`),
or `none` when no such flag was given; and the positional arguments `flag.Args()`. -/
structure CommandLine where
  siteRepo : Option String
  siteMakefile : Option String
  siteBranch : Option String
  args : List String

/-- State of the option variables after `init` and `flag.Parse()`: a supplied
flag sets its variable, otherwise the variable holds the registered default. -/
def flagParse (homeDir : String) (cl : CommandLine) : Options :=
  { siteRepoOpt := cl.siteRepo.getD (optionDefault homeDir "site-repo")
    siteMakeOpt := cl.siteMakefile.getD (optionDefault homeDir "site-makefile")
    siteBranchOpt := cl.siteBranch.getD (optionDefault homeDir "site-branch") }

/-- Model of `applyEnvOptions`; `getenv` is `os.Getenv` (empty string when unset).
The three `if` blocks are run in the order of the source. -/
def applyEnvOptions (homeDir : String) (getenv : String → String) (o : Options) : Options :=
  let o1 :=
    if o.siteRepoOpt = optionDefault homeDir "site-repo" then
      if getenv "NCAA_BARCA_SITE_REPO_PATH" ≠ "" then
        { o with siteRepoOpt := getenv "NCAA_BARCA_SITE_REPO_PATH" }
      else o
    else o
  let o2 :=
    if o1.siteMakeOpt = optionDefault homeDir "site-makefile" then
      if getenv "NCAA_BARCA_SITE_MAKEFILE" ≠ "" then
        { o1 with siteMakeOpt := getenv "NCAA_BARCA_SITE_MAKEFILE" }
      else o1
    else o1
  if o2.siteMakeOpt = optionDefault homeDir "site-branch" then
    if getenv "NCAA_BARCA_SITE_BRANCH" ≠ "" then
      { o2 with siteMakeOpt := getenv "NCAA_BARCA_SITE_BRANCH" }
    else o2
  else o2

/-- The option variables as `main` uses them: `flag.Parse()` followed by
`applyEnvOptions()`. -/
def resolve (homeDir : String) (getenv : String → String) (cl : CommandLine) : Options :=
  applyEnvOptions homeDir getenv (flagParse homeDir cl)

/-- The module name: `args[0]` when a positional argument was given, else the
zero value of the package variable `module`. -/
def moduleArg (args : List String) : String :=
  match args with
  | a :: _ => a
  | [] => ""

/-! ## Makefile locator (`getMakefile`) -/

/-- The loop over the directory entries: stops at the first entry whose name
equals `name`. -/
def foundMakefile (name : String) : List String → Bool
  | [] => false
  | f :: rest => if f = name then true else foundMakefile name rest

/-- Model of `getMakefile`. `listing` is the outcome of `ioutil.ReadDir(siteRepoOpt)`:
`none` for an error, otherwise the entry names. An error carries the `cvError` message. -/
def getMakefile (listing : Option (List String)) (o : Options) : Except String String :=
  match listing with
  | none => .error ("There was a problem reading the site repo directory @ " ++ o.siteRepoOpt)
  | some siteFiles =>
    if foundMakefile o.siteMakeOpt siteFiles then
      .ok (o.siteRepoOpt ++ "/" ++ o.siteMakeOpt)
    else
      .error ("Could not locate makefile @ '" ++ o.siteRepoOpt ++ "/" ++ o.siteMakeOpt ++ "'")

/-! ## Makefile scan and report (`main`, lines 160-181) -/

/-- Whether `pre` is at the front of `s`. -/
def hasPrefix : List Char → List Char → Bool
  | [], _ => true
  | _ :: _, [] => false
  | c :: cs, x :: xs => x = c && hasPrefix cs xs

/-- Whether `sub` occurs in `s` at some position. -/
def containsAt (sub : List Char) : List Char → Bool
  | [] => hasPrefix sub []
  | x :: xs => hasPrefix sub (x :: xs) || containsAt sub xs

/-- Model of `strings.Contains(s, substr)`. -/
def stringsContains (s substr : String) : Bool :=
  containsAt substr.data s.data

/-- The marker searched for: `"projects[" + module + "][download]"`. -/
def seekLine (module : String) : String :=
  "projects[" ++ module ++ "][download]"

/-- The scan loop. `lines` are the successive values of `scanner.Text()`;
`found` is the variable `matches`, reassigned on every line that contains the
marker. -/
def scanLoop (seek : String) : List String → List (List String) → List (List String)
  | [], found => found
  | line :: rest, found =>
    if stringsContains line seek then
      scanLoop seek rest (findAllStringSubmatch pattern patternGroups line)
    else
      scanLoop seek rest found

/-- Value of `matches` after the scan; it starts as the nil slice. -/
def scanMakefile (module : String) (lines : List String) : List (List String) :=
  scanLoop (seekLine module) lines []

/-- What the run reports about the module. -/
inductive Report where
  | found (kind value : String)
  | notFound
  deriving DecidableEq, Repr

/-- The test `len(matches) > 0 && len(matches[0]) == 3` and the operands
`matches[0][1]`, `matches[0][2]` it selects. -/
def report (found : List (List String)) : Report :=
  match found with
  | [_, kind, value] :: _ => .found kind value
  | _ => .notFound

/-- The line written to standard output: `fmt.Printf("[%s] Current %s: %s\n", ...)`
or `fmt.Println("Module not found:", module)`. -/
def printReport (module : String) : Report → String
  | .found kind value => "[" ++ module ++ "] Current " ++ kind ++ ": " ++ value ++ "\n"
  | .notFound => "Module not found: " ++ module ++ "\n"

/-- The extractor: scan, then decide what to report. -/
def extract (module : String) (lines : List String) : Report :=
  report (scanMakefile module lines)

/-! ## The run (`git`, `main`) -/

/-- Model of `strings.Trim(s, cutset)`: drops leading and trailing runes that
occur in `cutset`. -/
def stringsTrim (s cutset : String) : String :=
  String.mk (((s.data.dropWhile fun c => cutset.data.contains c).reverse.dropWhile
    fun c => cutset.data.contains c).reverse)

/-- The outside world of a run, over an abstract state `σ`: the git executable
(the command and working directory give either the combined output of a failed
command, or the output and the new state), directory listing, and the lines a
scanner yields for a path (none when the file cannot be opened: the error of
`os.Open` is discarded and the scanner then yields nothing). -/
structure World (σ : Type) where
  git : List String → String → σ → Except String (String × σ)
  readDir : σ → String → Option (List String)
  readLines : σ → String → List String

/-- How a run ends: by a panic, or by returning from `main`. Both carry what was
written to standard output, the git commands issued, and the final state. -/
inductive Outcome (σ : Type) where
  | fatal (stdout : String) (message : String) (commands : List (List String)) (w : σ)
  | done (stdout : String) (commands : List (List String)) (w : σ)

/-- The panic message of `git` for a failed command. -/
def gitPanic (command : List String) : String :=
  "there was a problem running the git command '" ++ " ".intercalate command ++
    "'. See output above for clues."

/-- Model of `main`. -/
def main {σ : Type} (W : World σ) (homeDir : String) (getenv : String → String)
    (cl : CommandLine) (w0 : σ) : Outcome σ :=
  let o := resolve homeDir getenv cl
  let module := moduleArg cl.args
  let revParse := ["rev-parse", "--abbrev-ref", "HEAD"]
  match W.git revParse o.siteRepoOpt w0 with
  | .error out => .fatal (out ++ "\n") (gitPanic revParse) [revParse] w0
  | .ok (out, w1) =>
    let originalBranch := stringsTrim out " \n\t\r"
    let switch := ["checkout", "origin/" ++ o.siteBranchOpt]
    match W.git switch o.siteRepoOpt w1 with
    | .error out2 => .fatal (out2 ++ "\n") (gitPanic switch) [revParse, switch] w1
    | .ok (_, w2) =>
      match getMakefile (W.readDir w2 o.siteRepoOpt) o with
      | .error e => .fatal "" e [revParse, switch] w2
      | .ok makefile =>
        let stdout := printReport module (extract module (W.readLines w2 makefile))
        let restore := ["checkout", originalBranch]
        match W.git restore o.siteRepoOpt w2 with
        | .error out3 =>
          .fatal (stdout ++ out3 ++ "\n") (gitPanic restore) [revParse, switch, restore] w2
        | .ok (_, w3) => .done stdout [revParse, switch, restore] w3

/-! ## A concrete world, used to instantiate the theorems -/

/-- An environment in which exactly one variable is set. -/
def envWith (name value : String) : String → String :=
  fun n => if n = name then value else ""

/-- A toy world whose state is the name of the checked-out reference:
`rev-parse --abbrev-ref HEAD` prints it on a line of its own, `checkout r` makes
`r` the checked-out reference, any other command fails; every directory holds
`barcelona.make`, whose content is the same two lines on every reference. -/
def toyWorld : World String where
  git := fun command _ w =>
    match command with
    | ["rev-parse", "--abbrev-ref", "HEAD"] => .ok (w ++ "\n", w)
    | ["checkout", ref] => .ok ("", ref)
    | _ => .error "git: unknown command"
  readDir := fun _ _ => some ["README.md", "barcelona.make"]
  readLines := fun _ _ =>
    ["projects[foo][download][type] = \"git\"", "projects[foo][download][tag] = \"7.x_1.0\""]

/-! ## Lemmas on the makefile scan -/

theorem foundMakefile_iff (name : String) (files : List String) :
    foundMakefile name files = true ↔ name ∈ files := by
  induction files with
  | nil => simp [foundMakefile]
  | cons f rest ih =>
    unfold foundMakefile
    by_cases h : f = name
    · simp [h]
    · have h2 : ¬ name = f := fun e => h e.symm
      simp [h, h2, ih]

theorem hasPrefix_iff (pre s : List Char) : hasPrefix pre s = true ↔ pre <+: s := by
  induction pre generalizing s with
  | nil => simp [hasPrefix]
  | cons c cs ih =>
    cases s with
    | nil => simp [hasPrefix]
    | cons x xs =>
      simp only [hasPrefix, Bool.and_eq_true, decide_eq_true_eq, ih, List.cons_prefix_cons]
      constructor
      · rintro ⟨h1, h2⟩
        exact ⟨h1.symm, h2⟩
      · rintro ⟨h1, h2⟩
        exact ⟨h1.symm, h2⟩

/-- The substring test agrees with the infix relation on character lists. -/
theorem containsAt_iff (sub s : List Char) : containsAt sub s = true ↔ sub <:+: s := by
  induction s with
  | nil =>
    simp only [containsAt, hasPrefix_iff, List.prefix_nil, List.infix_nil]
  | cons x xs ih =>
    simp only [containsAt, Bool.or_eq_true, hasPrefix_iff, ih, List.infix_cons_iff]

theorem scanLoop_unmarked (seek : String) (lines : List String) (acc : List (List String))
    (h : ∀ l ∈ lines, stringsContains l seek = false) : scanLoop seek lines acc = acc := by
  induction lines generalizing acc with
  | nil => rfl
  | cons l rest ih =>
    have hl : stringsContains l seek = false := h l (List.mem_cons_self _ _)
    simp only [scanLoop, hl, Bool.false_eq_true, if_false]
    exact ih acc fun x hx => h x (List.mem_cons_of_mem _ hx)

theorem scanLoop_append (seek : String) (pre rest : List String) (acc : List (List String)) :
    scanLoop seek (pre ++ rest) acc = scanLoop seek rest (scanLoop seek pre acc) := by
  induction pre generalizing acc with
  | nil => rfl
  | cons l pre ih =>
    simp only [List.cons_append, scanLoop]
    split <;> exact ih _

/-- After the scan, `matches` holds what was computed on the last line that
contains the marker. -/
theorem scanLoop_last (seek : String) (pre post : List String) (l : String)
    (acc : List (List String)) (hl : stringsContains l seek = true)
    (hpost : ∀ x ∈ post, stringsContains x seek = false) :
    scanLoop seek (pre ++ l :: post) acc = findAllStringSubmatch pattern patternGroups l := by
  rw [scanLoop_append]
  simp only [scanLoop, hl, if_true]
  exact scanLoop_unmarked seek post _ hpost

theorem submatch_length (n : Nat) (start : List Char) (t : Thread) :
    (submatch n start t).length = n + 1 := by
  simp [submatch]

theorem findAllLoop_length (re : Regex) (n fuel : Nat) (s : List Char) :
    ∀ m ∈ findAllLoop re n fuel s, m.length = n + 1 := by
  induction fuel generalizing s with
  | zero => simp [findAllLoop]
  | succ k ih =>
    intro m hm
    unfold findAllLoop at hm
    split at hm
    · simp at hm
    · split at hm
      · rcases List.mem_cons.1 hm with h | h
        · rw [h]; exact submatch_length _ _ _
        · exact ih _ m h
      · split at hm
        · rw [List.mem_singleton.1 hm]; exact submatch_length _ _ _
        · rcases List.mem_cons.1 hm with h | h
          · rw [h]; exact submatch_length _ _ _
          · exact ih _ m h

/-- Every match of the pattern is a slice of three strings, so the length test
of `main` holds whenever there is a match. -/
theorem pattern_match_shape (line : String) (m : List String)
    (hm : m ∈ findAllStringSubmatch pattern patternGroups line) :
    ∃ full kind value, m = [full, kind, value] := by
  have h := findAllLoop_length pattern patternGroups _ _ m hm
  match m, h with
  | [a, b, c], _ => exact ⟨a, b, c, rfl⟩

theorem report_eq_notFound_iff (line : String) :
    report (findAllStringSubmatch pattern patternGroups line) = .notFound ↔
      findAllStringSubmatch pattern patternGroups line = [] := by
  constructor
  · intro h
    cases hf : findAllStringSubmatch pattern patternGroups line with
    | nil => rfl
    | cons m rest =>
      obtain ⟨a, b, c, rfl⟩ := pattern_match_shape line m (by rw [hf]; exact List.mem_cons_self _ _)
      rw [hf] at h
      simp [report] at h
  · intro h
    rw [h]
    rfl

/-! ## Lemmas on the matcher -/

theorem stripLiteral_append (l r : List Char) : stripLiteral l (l ++ r) = some r := by
  induction l with
  | nil => simp [stripLiteral]
  | cons c cs ih => simp [stripLiteral, ih]

theorem stripLiteral_eq_some (l s r : List Char) (h : stripLiteral l s = some r) :
    s = l ++ r := by
  induction l generalizing s with
  | nil =>
    simp only [stripLiteral, Option.some.injEq] at h
    simpa using h
  | cons c cs ih =>
    cases s with
    | nil => simp [stripLiteral] at h
    | cons x xs =>
      simp only [stripLiteral] at h
      split at h
      · rename_i hx
        rw [hx, ih xs h]
        rfl
      · cases h

theorem run_literal_append (l r : List Char) (cs : Caps) :
    (Regex.literal l).run (l ++ r) cs = [(r, cs)] := by
  simp only [Regex.run, stripLiteral_append]

theorem run_concat (a b : Regex) (s : List Char) (cs : Caps) :
    (Regex.concat a b).run s cs = (a.run s cs).flatMap fun t => b.run t.1 t.2 := rfl

theorem run_alternate (a b : Regex) (s : List Char) (cs : Caps) :
    (Regex.alternate a b).run s cs = a.run s cs ++ b.run s cs := rfl

theorem run_plus (a : Regex) (s : List Char) (cs : Caps) :
    (Regex.plus a).run s cs = plusLoop a.run (s.length + 1) s cs := rfl

theorem run_capture (i : Nat) (a : Regex) (s : List Char) (cs : Caps) :
    (Regex.capture i a).run s cs =
      (a.run s cs).map fun t => (t.1, (i, s.take (s.length - t.1.length)) :: t.2) := rfl

theorem mem_run_literal {l s : List Char} {cs : Caps} {t : Thread}
    (h : t ∈ (Regex.literal l).run s cs) : s = l ++ t.1 := by
  simp only [Regex.run] at h
  split at h
  · rename_i r hr
    rw [List.mem_singleton] at h
    subst h
    exact stripLiteral_eq_some _ _ _ hr
  · simp at h

theorem mem_run_concat {a b : Regex} {s : List Char} {cs : Caps} {t : Thread}
    (h : t ∈ (Regex.concat a b).run s cs) : ∃ u ∈ a.run s cs, t ∈ b.run u.1 u.2 := by
  simpa only [Regex.run, List.mem_flatMap] using h

theorem mem_run_alternate {a b : Regex} {s : List Char} {cs : Caps} {t : Thread}
    (h : t ∈ (Regex.alternate a b).run s cs) : t ∈ a.run s cs ∨ t ∈ b.run s cs := by
  simpa only [Regex.run, List.mem_append] using h

theorem mem_run_capture {i : Nat} {a : Regex} {s : List Char} {cs : Caps} {t : Thread}
    (h : t ∈ (Regex.capture i a).run s cs) : ∃ u ∈ a.run s cs, t.1 = u.1 := by
  simp only [Regex.run, List.mem_map] at h
  obtain ⟨u, hu, rfl⟩ := h
  exact ⟨u, hu, rfl⟩

/-- Where the pattern matches, the input starts with one of the two declarations
up to and including the opening quote. -/
theorem pattern_run_prefix {s : List Char} {cs : Caps} {t : Thread}
    (h : t ∈ pattern.run s cs) :
    ∃ r, s = "[download][branch] = ".data ++ dquote :: r ∨
      s = "[download][tag] = ".data ++ dquote :: r := by
  unfold pattern at h
  obtain ⟨u1, hu1, h⟩ := mem_run_concat h
  have e1 := mem_run_literal hu1
  obtain ⟨u2, hu2, h⟩ := mem_run_concat h
  obtain ⟨u2', hu2', e2⟩ := mem_run_capture hu2
  obtain ⟨u3, hu3, _⟩ := mem_run_concat h
  have e4 := mem_run_literal hu3
  refine ⟨u3.1, ?_⟩
  rcases mem_run_alternate hu2' with hb | ht
  · have e3 := mem_run_literal hb
    left
    rw [e1, e3, ← e2, e4]
    rfl
  · have e3 := mem_run_literal ht
    right
    rw [e1, e3, ← e2, e4]
    rfl

theorem takeWhile_dquote (a b : List Char) (ha : dquote ∉ a) :
    (a ++ dquote :: b).takeWhile (fun c => c != dquote) = a := by
  induction a with
  | nil => simp
  | cons x xs ih =>
    have hx : x ≠ dquote := fun e => ha (by rw [e]; exact List.mem_cons_self _ _)
    have hxs : dquote ∉ xs := fun m => ha (List.mem_cons_of_mem _ m)
    have hb : (x != dquote) = true := bne_iff_ne.2 hx
    rw [List.cons_append, List.takeWhile_cons, hb, ih hxs]
    rfl

/-- The pattern has no match at a position from which a quote-free, non-empty
text precedes the declaration. -/
theorem pattern_run_before (u w : List Char) (cs : Caps) (hu : u ≠ []) (hq : dquote ∉ u) :
    pattern.run (u ++ ("[download][branch] = ".data ++ dquote :: w)) cs = [] := by
  by_contra hne
  obtain ⟨t, ht⟩ := List.exists_mem_of_ne_nil _ hne
  obtain ⟨r, hr⟩ := pattern_run_prefix ht
  have hlen : 0 < u.length := List.length_pos.2 hu
  have hq2 : dquote ∉ u ++ "[download][branch] = ".data := by
    intro hm
    rcases List.mem_append.1 hm with h | h
    · exact hq h
    · revert h
      decide
  have hl : (u ++ ("[download][branch] = ".data ++ dquote :: w)).takeWhile
      (fun c => c != dquote) = u ++ "[download][branch] = ".data := by
    rw [← List.append_assoc]
    exact takeWhile_dquote _ _ hq2
  rcases hr with hr | hr
  · rw [hr, takeWhile_dquote _ _ (by decide)] at hl
    have := congrArg List.length hl
    simp only [List.length_append] at this
    omega
  · rw [hr, takeWhile_dquote _ _ (by decide)] at hl
    have := congrArg List.length hl
    simp only [List.length_append, List.length_cons, List.length_nil] at this
    omega

theorem search_skip (u w : List Char) (hq : dquote ∉ u) :
    search pattern (u ++ ("[download][branch] = ".data ++ dquote :: w)) =
      search pattern ("[download][branch] = ".data ++ dquote :: w) := by
  induction u with
  | nil => rfl
  | cons c u ih =>
    have hrun := pattern_run_before (c :: u) w [] (List.cons_ne_nil _ _) hq
    rw [List.cons_append] at hrun ⊢
    simp only [search, hrun]
    exact ih fun m => hq (List.mem_cons_of_mem _ m)

theorem inClass_of_letter_digit (c : Char)
    (h : c.isAlpha = true ∨ c.isDigit = true ∨ c = '.' ∨ c = '_') :
    inClass valueClass c = true := by
  have hval : c.toNat = c.val.val.val := rfl
  simp only [inClass, valueClass, List.any_cons, List.any_nil, Bool.or_false, Bool.or_eq_true,
    Bool.and_eq_true, decide_eq_true_eq]
  rcases h with h | h | h | h
  · simp only [Char.isAlpha, Char.isUpper, Char.isLower, Bool.or_eq_true, Bool.and_eq_true,
      decide_eq_true_eq, ge_iff_le, UInt32.le_def] at h
    rcases h with ⟨h1, h2⟩ | ⟨h1, h2⟩
    · exact Or.inl ⟨h1, h2⟩
    · exact Or.inr (Or.inl ⟨h1, h2⟩)
  · simp only [Char.isDigit, Bool.and_eq_true, decide_eq_true_eq, ge_iff_le,
      UInt32.le_def] at h
    exact Or.inr (Or.inr (Or.inl ⟨h.1, h.2⟩))
  · subst h
    exact Or.inr (Or.inr (Or.inr (by decide)))
  · subst h
    exact Or.inr (Or.inr (Or.inr (by decide)))

theorem plusLoop_stop (rs : List (Char × Char)) (n : Nat) (rest : List Char) (cs : Caps)
    (hrest : ∀ c r, rest = c :: r → inClass rs c = false) :
    plusLoop (Regex.charClass rs).run n rest cs = [] := by
  cases n with
  | zero => rfl
  | succ k =>
    cases rest with
    | nil => simp [plusLoop, Regex.run]
    | cons c r => simp [plusLoop, Regex.run, hrest c r rfl]

/-- Greedy repetition of a class over a run `v` of class members that is followed
by a non-member: the preferred thread has consumed all of `v`, every other thread
stops inside `v`. -/
theorem plusLoop_class (rs : List (Char × Char)) (v rest : List Char) (cs : Caps) (n : Nat)
    (hv : v ≠ []) (hall : ∀ c ∈ v, inClass rs c = true)
    (hrest : ∀ c r, rest = c :: r → inClass rs c = false) (hn : v.length < n) :
    ∃ ts, plusLoop (Regex.charClass rs).run n (v ++ rest) cs = (rest, cs) :: ts ∧
      ∀ t ∈ ts, ∃ c w, t.1 = c :: w ∧ c ∈ v := by
  induction v generalizing n with
  | nil => exact absurd rfl hv
  | cons c v ih =>
    obtain ⟨k, rfl⟩ : ∃ k, n = k + 1 := ⟨n - 1, by omega⟩
    have hc : inClass rs c = true := hall c (List.mem_cons_self _ _)
    have hstep : plusLoop (Regex.charClass rs).run (k + 1) (c :: v ++ rest) cs =
        plusLoop (Regex.charClass rs).run k (v ++ rest) cs ++ [(v ++ rest, cs)] := by
      simp [plusLoop, Regex.run, hc]
    rw [hstep]
    cases v with
    | nil =>
      refine ⟨[], ?_, by simp⟩
      rw [List.nil_append, plusLoop_stop rs k rest cs hrest]
      rfl
    | cons c2 v2 =>
      obtain ⟨ts, hts, hmem⟩ := ih k (List.cons_ne_nil _ _)
        (fun x hx => hall x (List.mem_cons_of_mem _ hx))
        (by simp only [List.length_cons] at hn ⊢; omega)
      refine ⟨ts ++ [(c2 :: v2 ++ rest, cs)], by rw [hts]; rfl, ?_⟩
      intro t ht
      rcases List.mem_append.1 ht with h | h
      · obtain ⟨x, w, e, hx⟩ := hmem t h
        exact ⟨x, w, e, List.mem_cons_of_mem _ hx⟩
      · rw [List.mem_singleton] at h
        subst h
        exact ⟨c2, v2 ++ rest, rfl, by simp⟩

/-- On a declaration of a branch whose value is a non-empty run of class members,
the pattern has exactly one thread: it consumes the whole declaration and
captures `branch` and the value. -/
theorem pattern_run_declared (v : List Char) (cs : Caps) (hv : v ≠ [])
    (hall : ∀ c ∈ v, inClass valueClass c = true) :
    pattern.run ("[download][".data ++ ("branch".data ++ ("] = \"".data ++ (v ++ [dquote])))) cs =
      [([], (2, v) :: (1, "branch".data) :: cs)] := by
  obtain ⟨ts, hts, hmem⟩ := plusLoop_class valueClass v [dquote] ((1, "branch".data) :: cs)
    ((v ++ [dquote]).length + 1) hv hall
    (by
      intro c r h
      injection h with h1 _
      subst h1
      decide)
    (by simp only [List.length_append, List.length_singleton]; omega)
  have htag : ∀ cs2 : Caps, (Regex.literal "tag".data).run
      ("branch".data ++ ("] = \"".data ++ (v ++ [dquote]))) cs2 = [] := fun _ => rfl
  have htake1 : ∀ r : List Char,
      List.take (("branch".data ++ r).length - r.length) ("branch".data ++ r) = "branch".data := by
    intro r
    rw [List.length_append, Nat.add_sub_cancel, List.take_left]
  have htake2 : List.take ((v ++ [dquote]).length - [dquote].length) (v ++ [dquote]) = v := by
    rw [List.length_append, Nat.add_sub_cancel, List.take_left]
  have hlast : ∀ cs2 : Caps, (Regex.literal "\"".data).run [dquote] cs2 = [([], cs2)] :=
    fun _ => rfl
  have hts2 : (ts.map fun t : Thread =>
      (t.1, (2, List.take ((v ++ [dquote]).length - t.1.length) (v ++ [dquote])) :: t.2)).flatMap
        (fun t => (Regex.literal "\"".data).run t.1 t.2) = [] := by
    rw [List.flatMap_eq_nil_iff]
    intro t ht
    obtain ⟨u, hu, rfl⟩ := List.mem_map.1 ht
    obtain ⟨c, w, e, hc⟩ := hmem u hu
    have hne : c ≠ dquote := by
      intro h
      have := hall c hc
      rw [h] at this
      revert this
      decide
    show (Regex.literal [dquote]).run u.1 _ = []
    rw [e]
    simp [Regex.run, stripLiteral, hne]
  unfold pattern
  simp only [run_concat, run_capture, run_alternate, run_plus, run_literal_append, htag,
    List.flatMap_cons, List.flatMap_nil, List.append_nil, List.map_cons, List.map_nil, htake1,
    hts, htake2, hlast, hts2]

theorem search_head (re : Regex) (s : List Char) (t : Thread) (ts : List Thread)
    (h : re.run s [] = t :: ts) : search re s = some (s, t) := by
  cases s <;> simp only [search, h]

theorem findAllLoop_nil (n fuel : Nat) : findAllLoop pattern n fuel [] = [] := by
  cases fuel with
  | zero => rfl
  | succ k =>
    have h : pattern.run [] [] = [] := rfl
    simp only [findAllLoop, search, h]

theorem findAllLoop_single (n fuel : Nat) (s start : List Char) (cs : Caps)
    (h : search pattern s = some (start, ([], cs))) (hs : start ≠ []) :
    findAllLoop pattern n (fuel + 1) s = [submatch n start ([], cs)] := by
  have hlen : ([] : List Char).length < start.length := List.length_pos.2 hs
  rw [findAllLoop]
  simp only [h, hlen, if_true, findAllLoop_nil]

/-- On the line that declares a branch for module `m`, with a quote-free module
name and a value that is a non-empty run of class members, the pattern has one
match: the declaration, with kind `branch` and the value. -/
theorem findAll_declared (m v : String) (hm : dquote ∉ m.data) (hv : v.data ≠ [])
    (hall : ∀ c ∈ v.data, inClass valueClass c = true) :
    findAllStringSubmatch pattern patternGroups
        ("projects[" ++ m ++ "][download][branch] = \"" ++ v ++ "\"") =
      [["[download][branch] = \"" ++ v ++ "\"", "branch", v]] := by
  have hdata : ("projects[" ++ m ++ "][download][branch] = \"" ++ v ++ "\"").data =
      ("projects[".data ++ m.data ++ "]".data) ++
        ("[download][branch] = ".data ++ dquote :: (v.data ++ [dquote])) := by
    simp only [String.data_append, List.append_assoc]
    rfl
  have hq : dquote ∉ "projects[".data ++ m.data ++ "]".data := by
    intro h
    rcases List.mem_append.1 h with h | h
    · rcases List.mem_append.1 h with h | h
      · revert h
        decide
      · exact hm h
    · revert h
      decide
  have hrun : pattern.run ("[download][branch] = ".data ++ dquote :: (v.data ++ [dquote])) [] =
      [([], [(2, v.data), (1, "branch".data)])] := pattern_run_declared v.data [] hv hall
  have hsearch := search_head _ _ _ _ hrun
  have hfull : String.mk ("[download][branch] = ".data ++ dquote :: (v.data ++ [dquote])) =
      "[download][branch] = \"" ++ v ++ "\"" := by
    apply String.ext
    simp only [String.data_append, List.append_assoc]
    rfl
  unfold findAllStringSubmatch
  rw [hdata, findAllLoop_single _ _ _ _ _ ((search_skip _ _ hq).trans hsearch) (by simp)]
  simp only [submatch, capText, patternGroups, List.length_nil, Nat.sub_zero, List.take_length,
    hfull]
  rfl

/-! ## Fuel

The two loops that take fuel are started with the length of their input plus
one. A thread never has more input left than it started with, every iteration
of a class repetition reads a rune, and every round of the match loop moves
forward, so the result is the same for any larger amount of fuel. -/

theorem plusLoop_length_le (step : List Char → Caps → List Thread)
    (hstep : ∀ s cs, ∀ t ∈ step s cs, t.1.length ≤ s.length) (n : Nat) (s : List Char)
    (cs : Caps) : ∀ t ∈ plusLoop step n s cs, t.1.length ≤ s.length := by
  induction n generalizing s cs with
  | zero => simp [plusLoop]
  | succ k ih =>
    intro t ht
    simp only [plusLoop, List.mem_flatMap, List.mem_append, List.mem_singleton] at ht
    obtain ⟨u, hu, h | h⟩ := ht
    · exact Nat.le_trans (ih u.1 u.2 t h) (hstep s cs u hu)
    · rw [h]; exact hstep s cs u hu

/-- A thread has no more input left than the matcher was given. -/
theorem run_length_le (re : Regex) (s : List Char) (cs : Caps) :
    ∀ t ∈ re.run s cs, t.1.length ≤ s.length := by
  induction re generalizing s cs with
  | literal l =>
    intro t ht
    rw [mem_run_literal ht, List.length_append]
    omega
  | charClass rs =>
    intro t ht
    cases s with
    | nil => simp [Regex.run] at ht
    | cons c r =>
      simp only [Regex.run] at ht
      split at ht
      · rw [List.mem_singleton.1 ht]; simp
      · simp at ht
  | concat a b iha ihb =>
    intro t ht
    obtain ⟨u, hu, h⟩ := mem_run_concat ht
    exact Nat.le_trans (ihb u.1 u.2 t h) (iha s cs u hu)
  | alternate a b iha ihb =>
    intro t ht
    rcases mem_run_alternate ht with h | h
    · exact iha s cs t h
    · exact ihb s cs t h
  | plus a iha =>
    intro t ht
    exact plusLoop_length_le a.run iha _ s cs t ht
  | capture i a iha =>
    intro t ht
    obtain ⟨u, hu, h⟩ := mem_run_capture ht
    rw [h]; exact iha s cs u hu

/-- Repetition of a step that always reads something does not depend on the fuel,
once the fuel exceeds the length of the input. -/
theorem plusLoop_fuel (step : List Char → Caps → List Thread)
    (hstep : ∀ s cs, ∀ t ∈ step s cs, t.1.length < s.length) (k1 k2 : Nat) (s : List Char)
    (cs : Caps) (h1 : s.length < k1) (h2 : s.length < k2) :
    plusLoop step k1 s cs = plusLoop step k2 s cs := by
  induction k1 generalizing k2 s cs with
  | zero => omega
  | succ a ih =>
    obtain ⟨b, rfl⟩ : ∃ b, k2 = b + 1 := ⟨k2 - 1, by omega⟩
    simp only [plusLoop]
    apply List.flatMap_congr
    intro t ht
    have hlt := hstep s cs t ht
    rw [ih b t.1 t.2 (by omega) (by omega)]

theorem charClass_run_reads (rs : List (Char × Char)) (s : List Char) (cs : Caps) :
    ∀ t ∈ (Regex.charClass rs).run s cs, t.1.length < s.length := by
  intro t ht
  cases s with
  | nil => simp [Regex.run] at ht
  | cons c r =>
    simp only [Regex.run] at ht
    split at ht
    · rw [List.mem_singleton.1 ht]; simp
    · simp at ht

/-- The repetition in the pattern yields the same threads for any fuel above the
length of the input. -/
theorem valueClass_plus_fuel (fuel : Nat) (s : List Char) (cs : Caps) (h : s.length < fuel) :
    plusLoop (Regex.charClass valueClass).run fuel s cs =
      (Regex.plus (.charClass valueClass)).run s cs :=
  plusLoop_fuel _ (charClass_run_reads valueClass) _ _ s cs h (Nat.lt_succ_self _)

theorem search_some (re : Regex) (s start : List Char) (t : Thread)
    (h : search re s = some (start, t)) :
    start.length ≤ s.length ∧ t.1.length ≤ start.length := by
  induction s with
  | nil =>
    simp only [search] at h
    split at h
    · rename_i u us hrun
      simp only [Option.some.injEq, Prod.mk.injEq] at h
      obtain ⟨h1, h2⟩ := h
      subst h1 h2
      exact ⟨Nat.le_refl _, run_length_le re [] [] u (by rw [hrun]; exact List.mem_cons_self _ _)⟩
    · cases h
  | cons c r ih =>
    simp only [search] at h
    split at h
    · rename_i u us hrun
      simp only [Option.some.injEq, Prod.mk.injEq] at h
      obtain ⟨h1, h2⟩ := h
      subst h1 h2
      exact ⟨Nat.le_refl _,
        run_length_le re (c :: r) [] u (by rw [hrun]; exact List.mem_cons_self _ _)⟩
    · obtain ⟨h1, h2⟩ := ih h
      exact ⟨Nat.le_trans h1 (Nat.le_succ _), h2⟩

/-- The match loop does not depend on the fuel, once the fuel exceeds the length
of the input: `findAllStringSubmatch` never stops for lack of fuel. -/
theorem findAllLoop_fuel (re : Regex) (n k1 k2 : Nat) (s : List Char)
    (h1 : s.length < k1) (h2 : s.length < k2) :
    findAllLoop re n k1 s = findAllLoop re n k2 s := by
  induction k1 generalizing k2 s with
  | zero => omega
  | succ a ih =>
    obtain ⟨b, rfl⟩ : ∃ b, k2 = b + 1 := ⟨k2 - 1, by omega⟩
    simp only [findAllLoop]
    cases hs : search re s with
    | none => rfl
    | some p =>
      obtain ⟨start, t⟩ := p
      obtain ⟨hle1, hle2⟩ := search_some re s start t hs
      simp only
      split
      · rw [ih b t.1 (by omega) (by omega)]
      · split
        · rfl
        · rename_i c r hr
          have hlen : r.length + 1 = t.1.length := by rw [hr]; rfl
          rw [ih b r (by omega) (by omega)]

/-- A match of the pattern is never empty, so the match loop always resumes at
the end of the previous match. -/
theorem pattern_run_reads (s : List Char) (cs : Caps) :
    ∀ t ∈ pattern.run s cs, t.1.length < s.length := by
  intro t ht
  unfold pattern at ht
  obtain ⟨u, hu, h⟩ := mem_run_concat ht
  have e := mem_run_literal hu
  have hle := run_length_le _ _ _ t h
  rw [e, List.length_append]
  have : 0 < "[download][".data.length := by decide
  omega

/-! ## Makefile locator -/

/-- C5: `getMakefile` returns the "problem reading" error naming `r` when the
directory cannot be listed, the "could not locate" error naming `r/n` when the
listing has no entry named exactly `n`, and it returns a path without error
exactly when the listing succeeds and has an entry named `n`, the path then
being `r + "/" + n`. -/
theorem getMakefile_result (r n b : String) :
    getMakefile none ⟨r, n, b⟩ =
        .error ("There was a problem reading the site repo directory @ " ++ r) ∧
    (∀ names : List String, n ∉ names →
      getMakefile (some names) ⟨r, n, b⟩ =
        .error ("Could not locate makefile @ '" ++ r ++ "/" ++ n ++ "'")) ∧
    (∀ (listing : Option (List String)) (path : String),
      getMakefile listing ⟨r, n, b⟩ = .ok path ↔
        path = r ++ "/" ++ n ∧ ∃ names, listing = some names ∧ n ∈ names) := by
  refine ⟨rfl, ?_, ?_⟩
  · intro names hn
    have hf : foundMakefile n names = false := by
      cases h : foundMakefile n names with
      | false => rfl
      | true => exact absurd ((foundMakefile_iff n names).1 h) hn
    simp [getMakefile, hf]
  · intro listing path
    cases listing with
    | none => simp [getMakefile]
    | some names =>
      cases h : foundMakefile n names with
      | false =>
        have hn : n ∉ names := fun hm => by
          rw [(foundMakefile_iff n names).2 hm] at h
          exact Bool.noConfusion h
        simp [getMakefile, h, hn]
      | true =>
        have hn : n ∈ names := (foundMakefile_iff n names).1 h
        simp only [getMakefile, h, if_true, Except.ok.injEq, Option.some.injEq, exists_eq_left',
          hn, and_true]
        exact eq_comm

/-- Instance of C5 on a listing without the makefile, and on one with it. -/
theorem getMakefile_result_witness :
    getMakefile (some ["README.md"]) ⟨"/srv/site", "barcelona.make", "master"⟩ =
        .error "Could not locate makefile @ '/srv/site/barcelona.make'" ∧
    getMakefile (some ["README.md", "barcelona.make"]) ⟨"/srv/site", "barcelona.make", "master"⟩ =
        .ok "/srv/site/barcelona.make" :=
  ⟨(getMakefile_result "/srv/site" "barcelona.make" "master").2.1 ["README.md"] (by decide),
   ((getMakefile_result "/srv/site" "barcelona.make" "master").2.2 _ _).2
     ⟨by decide, _, rfl, by decide⟩⟩

/-! ## Makefile scan -/

theorem extract_unmarked (module : String) (lines : List String)
    (h : ∀ l ∈ lines, stringsContains l (seekLine module) = false) :
    extract module lines = .notFound := by
  unfold extract scanMakefile
  rw [scanLoop_unmarked _ _ _ h]
  rfl

theorem extract_last (module : String) (pre post : List String) (l : String)
    (hl : stringsContains l (seekLine module) = true)
    (hpost : ∀ x ∈ post, stringsContains x (seekLine module) = false) :
    extract module (pre ++ l :: post) =
      report (findAllStringSubmatch pattern patternGroups l) := by
  unfold extract scanMakefile
  rw [scanLoop_last _ _ _ _ _ hl hpost]

/-- C7: when no line of the makefile contains `projects[m][download]`, the
extractor reports no match and the output is exactly `Module not found: m`
followed by a newline. -/
theorem absent_module_not_found (module : String) (lines : List String)
    (h : ∀ l ∈ lines, stringsContains l (seekLine module) = false) :
    extract module lines = .notFound ∧
      printReport module (extract module lines) = "Module not found: " ++ module ++ "\n" := by
  have he := extract_unmarked module lines h
  exact ⟨he, by rw [he]; rfl⟩

/-- Instance of C7 for module `bar` on a makefile that declares only `foo`. -/
theorem absent_module_not_found_witness :
    extract "bar" ["; site makefile", "projects[foo][download][branch] = \"dev\""] = .notFound ∧
      printReport "bar"
          (extract "bar" ["; site makefile", "projects[foo][download][branch] = \"dev\""]) =
        "Module not found: bar\n" :=
  absent_module_not_found "bar" ["; site makefile", "projects[foo][download][branch] = \"dev\""]
    (by decide)

/-- C4: when two lines contain the marker of the module and the pattern matches
on both with different values, the later one being the last line that contains
the marker, then the matches retained after the scan are those computed on the
later line and the reported kind and value are those of the later line, not of
the earlier one. -/
theorem last_match_wins (module : String) (pre mid post : List String) (l1 l2 : String)
    (k1 v1 k2 v2 : String)
    (_h1 : stringsContains l1 (seekLine module) = true)
    (h2 : stringsContains l2 (seekLine module) = true)
    (hpost : ∀ x ∈ post, stringsContains x (seekLine module) = false)
    (_hm1 : report (findAllStringSubmatch pattern patternGroups l1) = .found k1 v1)
    (hm2 : report (findAllStringSubmatch pattern patternGroups l2) = .found k2 v2)
    (hne : v1 ≠ v2) :
    scanMakefile module (pre ++ l1 :: (mid ++ l2 :: post)) =
        findAllStringSubmatch pattern patternGroups l2 ∧
      extract module (pre ++ l1 :: (mid ++ l2 :: post)) = .found k2 v2 ∧
      extract module (pre ++ l1 :: (mid ++ l2 :: post)) ≠ .found k1 v1 ∧
      printReport module (extract module (pre ++ l1 :: (mid ++ l2 :: post))) =
        "[" ++ module ++ "] Current " ++ k2 ++ ": " ++ v2 ++ "\n" := by
  have hsplit : pre ++ l1 :: (mid ++ l2 :: post) = (pre ++ l1 :: mid) ++ l2 :: post := by simp
  have he : extract module (pre ++ l1 :: (mid ++ l2 :: post)) = .found k2 v2 := by
    rw [hsplit, extract_last module _ post l2 h2 hpost, hm2]
  refine ⟨?_, he, ?_, ?_⟩
  · unfold scanMakefile
    rw [hsplit]
    exact scanLoop_last _ _ _ _ _ h2 hpost
  · rw [he]
    intro h
    injection h with _ hv
    exact hne hv.symm
  · rw [he]
    rfl

/-- Instance of C4: a `branch` declaration followed, two lines later, by a `tag`
declaration of the same module. -/
theorem last_match_wins_witness :
    extract "foo" ([] ++ "projects[foo][download][branch] = \"dev\"" ::
        (["projects[bar][download][tag] = \"1.0\""] ++
          "projects[foo][download][tag] = \"7.x\"" :: [])) = .found "tag" "7.x" ∧
      extract "foo" ([] ++ "projects[foo][download][branch] = \"dev\"" ::
        (["projects[bar][download][tag] = \"1.0\""] ++
          "projects[foo][download][tag] = \"7.x\"" :: [])) ≠ .found "branch" "dev" :=
  have h := last_match_wins "foo" [] ["projects[bar][download][tag] = \"1.0\""] []
    "projects[foo][download][branch] = \"dev\"" "projects[foo][download][tag] = \"7.x\""
    "branch" "dev" "tag" "7.x" (by decide) (by decide) (by decide) (by decide) (by decide)
    (by decide)
  ⟨h.2.1, h.2.2.1⟩

/-- C10: the outcome depends only on the last line that contains the marker: it
is what the test of `main` selects from the matches on that line. If that line
has no match of the pattern the output is `Module not found: m`, whatever the
earlier lines hold; if it has matches, the first of them is reported. -/
theorem last_marked_line_decides (module : String) (pre post : List String) (l : String)
    (hl : stringsContains l (seekLine module) = true)
    (hpost : ∀ x ∈ post, stringsContains x (seekLine module) = false) :
    extract module (pre ++ l :: post) =
        report (findAllStringSubmatch pattern patternGroups l) ∧
      (findAllStringSubmatch pattern patternGroups l = [] →
        printReport module (extract module (pre ++ l :: post)) =
          "Module not found: " ++ module ++ "\n") ∧
      (∀ m rest, findAllStringSubmatch pattern patternGroups l = m :: rest →
        ∃ full kind value, m = [full, kind, value] ∧
          extract module (pre ++ l :: post) = .found kind value) := by
  have he := extract_last module pre post l hl hpost
  refine ⟨he, ?_, ?_⟩
  · intro h0
    rw [he, h0]
    rfl
  · intro m rest hm
    obtain ⟨a, b, c, rfl⟩ :=
      pattern_match_shape l m (by rw [hm]; exact List.mem_cons_self _ _)
    exact ⟨a, b, c, rfl, by rw [he, hm]; rfl⟩

/-- Instance of C10: a `branch` declaration of the module followed by its `type`
line, on which the pattern has no match. -/
theorem last_marked_line_decides_witness :
    printReport "foo"
        (extract "foo" (["projects[foo][download][branch] = \"dev\""] ++
          "projects[foo][download][type] = \"git\"" :: ["; end"])) =
      "Module not found: " ++ "foo" ++ "\n" :=
  (last_marked_line_decides "foo" ["projects[foo][download][branch] = \"dev\""] ["; end"]
    "projects[foo][download][type] = \"git\"" (by decide) (by decide)).2.1 (by decide)

/-- C8, the claim fails: with no positional argument the marker is
`projects[][download]`, and a makefile line that holds it and a declaration is
reported as a match. -/
theorem empty_module_found :
    extract (moduleArg []) ["projects[][download][branch] = \"dev\""] = .found "branch" "dev" ∧
      printReport (moduleArg []) (extract (moduleArg []) ["projects[][download][branch] = \"dev\""])
        = "[] Current branch: dev\n" := by
  decide

/-- C8 as amended: with no positional argument the module is the empty string;
the outcome is "Module not found" when no line contains `projects[][download]`,
and otherwise it is "Module not found" exactly when the pattern has no match on
the last line that contains `projects[][download]`. -/
theorem empty_module_outcome (lines : List String) :
    moduleArg [] = "" ∧
    ((∀ l ∈ lines, stringsContains l "projects[][download]" = false) →
      extract (moduleArg []) lines = .notFound ∧
        printReport (moduleArg []) (extract (moduleArg []) lines) = "Module not found: \n") ∧
    (∀ pre l post, lines = pre ++ l :: post →
      stringsContains l "projects[][download]" = true →
      (∀ x ∈ post, stringsContains x "projects[][download]" = false) →
      (extract (moduleArg []) lines = .notFound ↔
        findAllStringSubmatch pattern patternGroups l = [])) := by
  have hs : seekLine "" = "projects[][download]" := by decide
  refine ⟨rfl, ?_, ?_⟩
  · intro h
    have he : extract "" lines = .notFound := extract_unmarked "" lines (by rw [hs]; exact h)
    exact ⟨he, by show printReport "" (extract "" lines) = _; rw [he]; rfl⟩
  · intro pre l post hlines hl hpost
    subst hlines
    have he : extract "" (pre ++ l :: post) = _ :=
      extract_last "" pre post l (by rw [hs]; exact hl) (by rw [hs]; exact hpost)
    show extract "" (pre ++ l :: post) = .notFound ↔ _
    rw [he]
    exact report_eq_notFound_iff l

/-- Instance of C8 as amended: a makefile without the marker, and one whose last
line with the marker has no match. -/
theorem empty_module_outcome_witness :
    extract (moduleArg []) ["projects[foo][download][branch] = \"dev\""] = .notFound ∧
      extract (moduleArg [])
          (["projects[][download][branch] = \"dev\""] ++
            "projects[][download][type] = \"git\"" :: []) = .notFound :=
  ⟨((empty_module_outcome ["projects[foo][download][branch] = \"dev\""]).2.1 (by decide)).1,
   ((empty_module_outcome (["projects[][download][branch] = \"dev\""] ++
        "projects[][download][type] = \"git\"" :: [])).2.2
      ["projects[][download][branch] = \"dev\""] "projects[][download][type] = \"git\"" []
      rfl (by decide) (by decide)).2 (by decide)⟩

/-- C6, evaluation at the failing input: a declared value containing `/`, which
lies between `.` and `_`, is reported. -/
theorem slash_value_reported :
    extract "foo" ["projects[foo][download][branch] = \"feature/x\""] =
      .found "branch" "feature/x" := by
  decide

theorem declared_line_marked (m v : String) :
    stringsContains ("projects[" ++ m ++ "][download][branch] = \"" ++ v ++ "\"") (seekLine m)
      = true := by
  unfold stringsContains seekLine
  rw [containsAt_iff]
  refine ⟨[], "[branch] = \"".data ++ v.data ++ "\"".data, ?_⟩
  simp only [String.data_append, List.nil_append, List.append_assoc]
  rfl

/-- C1, the claim fails: for the module name `[download][tag] = "y"` the line
that declares branch `v` holds an earlier match of the pattern, inside the module
name, and that one is reported. -/
theorem module_name_with_declaration :
    scanMakefile "[download][tag] = \"y\""
        ["projects[" ++ "[download][tag] = \"y\"" ++ "][download][branch] = \"" ++ "v" ++ "\""] =
      [["[download][tag] = \"y\"", "tag", "y"], ["[download][branch] = \"v\"", "branch", "v"]] ∧
    extract "[download][tag] = \"y\""
        ["projects[" ++ "[download][tag] = \"y\"" ++ "][download][branch] = \"" ++ "v" ++ "\""] =
      .found "tag" "y" := by
  decide

/-- The value `release-1.2` of a declared branch is not matched: `-` (U+002D) lies
just below the range `.-_` of the bracket expression. -/
theorem hyphen_value_not_found :
    findAllStringSubmatch pattern patternGroups
        "projects[foo][download][branch] = \"release-1.2\"" = [] ∧
      printReport "foo" (extract "foo" ["projects[foo][download][branch] = \"release-1.2\""]) =
        "Module not found: foo\n" := by
  decide

/-- C1 as amended: for every module name `m` without a double quote and every
non-empty value `v` made only of letters, digits, `.` and `_`, scanning a makefile
whose only line containing the marker `projects[m][download]` is
`projects[m][download][branch] = "v"` reports kind `branch` and value `v`, and
prints `[m] Current branch: v`. -/
theorem declared_branch_reported (m v : String) (pre post : List String)
    (hm : dquote ∉ m.data) (hv : v.data ≠ [])
    (hchars : ∀ c ∈ v.data, c.isAlpha = true ∨ c.isDigit = true ∨ c = '.' ∨ c = '_')
    (_hpre : ∀ x ∈ pre, stringsContains x (seekLine m) = false)
    (hpost : ∀ x ∈ post, stringsContains x (seekLine m) = false) :
    extract m (pre ++ ("projects[" ++ m ++ "][download][branch] = \"" ++ v ++ "\"") :: post) =
        .found "branch" v ∧
      printReport m
          (extract m
            (pre ++ ("projects[" ++ m ++ "][download][branch] = \"" ++ v ++ "\"") :: post)) =
        "[" ++ m ++ "] Current branch: " ++ v ++ "\n" := by
  have he : extract m
      (pre ++ ("projects[" ++ m ++ "][download][branch] = \"" ++ v ++ "\"") :: post) =
      .found "branch" v := by
    rw [extract_last m pre post _ (declared_line_marked m v) hpost,
      findAll_declared m v hm hv fun c hc => inClass_of_letter_digit c (hchars c hc)]
    rfl
  refine ⟨he, ?_⟩
  rw [he]
  apply String.ext
  simp only [printReport, String.data_append, List.append_assoc]
  rfl

/-- Instance of C1 as amended: module `foo`, value `release_1.2`. -/
theorem declared_branch_reported_witness :
    extract "foo"
        (["; site makefile"] ++
          ("projects[" ++ "foo" ++ "][download][branch] = \"" ++ "release_1.2" ++ "\"") ::
            ["projects[bar][download][tag] = \"7.x\""]) = .found "branch" "release_1.2" ∧
      printReport "foo"
          (extract "foo"
            (["; site makefile"] ++
              ("projects[" ++ "foo" ++ "][download][branch] = \"" ++ "release_1.2" ++ "\"") ::
                ["projects[bar][download][tag] = \"7.x\""])) =
        "[" ++ "foo" ++ "] Current branch: " ++ "release_1.2" ++ "\n" :=
  declared_branch_reported "foo" "release_1.2" ["; site makefile"]
    ["projects[bar][download][tag] = \"7.x\""] (by decide) (by decide) (by decide) (by decide)
    (by decide)

/-! ## Configuration -/

/-- C2, the claim fails: a `--site-repo` flag supplied with the value of the
built-in default is replaced by the value of `NCAA_BARCA_SITE_REPO_PATH`. -/
theorem flag_equal_to_default_overridden :
    flagParse "/home/u" ⟨some "/home/u/Repos/ncaa-barcelona", none, none, ["foo"]⟩ =
        ⟨"/home/u/Repos/ncaa-barcelona", "barcelona.make", "master"⟩ ∧
      (resolve "/home/u" (envWith "NCAA_BARCA_SITE_REPO_PATH" "/srv/site")
        ⟨some "/home/u/Repos/ncaa-barcelona", none, none, ["foo"]⟩).siteRepoOpt = "/srv/site" ∧
      (resolve "/home/u" (envWith "NCAA_BARCA_SITE_REPO_PATH" "/srv/site")
        ⟨some "/home/u/Repos/ncaa-barcelona", none, none, ["foo"]⟩).siteRepoOpt ≠
          "/home/u/Repos/ncaa-barcelona" := by
  decide

/-- C2 as amended: for each of the three settings, a flag value that differs
from the built-in default of that setting (and, for the makefile name, also from
the branch default) is the resolved value, whatever the environment holds. -/
theorem flag_beats_env (homeDir : String) (getenv : String → String) (cl : CommandLine) :
    (∀ v, cl.siteRepo = some v → v ≠ optionDefault homeDir "site-repo" →
      (resolve homeDir getenv cl).siteRepoOpt = v) ∧
    (∀ v, cl.siteMakefile = some v → v ≠ optionDefault homeDir "site-makefile" →
      v ≠ optionDefault homeDir "site-branch" →
      (resolve homeDir getenv cl).siteMakeOpt = v) ∧
    (∀ v, cl.siteBranch = some v → v ≠ optionDefault homeDir "site-branch" →
      (resolve homeDir getenv cl).siteBranchOpt = v) := by
  refine ⟨?_, ?_, ?_⟩
  · intro v hv hne
    simp only [resolve, applyEnvOptions, flagParse, hv, Option.getD_some]
    split_ifs <;> first | rfl | contradiction
  · intro v hv hne hne2
    simp only [resolve, applyEnvOptions, flagParse, hv, Option.getD_some]
    split_ifs <;> rfl
  · intro v hv _
    simp only [resolve, applyEnvOptions, flagParse, hv, Option.getD_some]
    split_ifs <;> rfl

/-- Instance of C2 as amended: three flags, all three environment variables set. -/
theorem flag_beats_env_witness :
    resolve "/home/u" (fun _ => "env") ⟨some "/srv/site", some "site.make", some "qa", []⟩ =
      ⟨"/srv/site", "site.make", "qa"⟩ :=
  have h := flag_beats_env "/home/u" (fun _ => "env")
    ⟨some "/srv/site", some "site.make", some "qa", []⟩
  congr (congr (congrArg Options.mk (h.1 "/srv/site" rfl (by decide)))
    (h.2.1 "site.make" rfl (by decide) (by decide))) (h.2.2 "qa" rfl (by decide))

/-- C3, evaluation at the failing input: with no flag given and
`NCAA_BARCA_SITE_BRANCH=qa`, the resolved branch is still `master`. -/
theorem env_branch_not_applied :
    flagParse "/home/u" ⟨none, none, none, ["foo"]⟩ =
        ⟨"/home/u/Repos/ncaa-barcelona", "barcelona.make", "master"⟩ ∧
      resolve "/home/u" (envWith "NCAA_BARCA_SITE_BRANCH" "qa") ⟨none, none, none, ["foo"]⟩ =
        ⟨"/home/u/Repos/ncaa-barcelona", "barcelona.make", "master"⟩ := by
  decide

/-! ## The run -/

/-- C9: in a run where the three git commands succeed and the makefile is
located, `main` returns after issuing `rev-parse --abbrev-ref HEAD`, the checkout
of `origin/<branch>` and, last, a checkout of the trimmed output of `rev-parse`;
the line printed is the report of the extractor, match or not. When the trimmed
output of `rev-parse` is the name of the reference active at the start and a
successful checkout makes its argument the active reference, the active
reference after the run is the one before it. -/
theorem branch_restored {σ : Type} (W : World σ) (active : σ → String) (homeDir : String)
    (getenv : String → String) (cl : CommandLine) (w0 w1 w2 w3 : σ)
    (out out2 out3 makefile : String)
    (hrev : W.git ["rev-parse", "--abbrev-ref", "HEAD"]
      (resolve homeDir getenv cl).siteRepoOpt w0 = .ok (out, w1))
    (hswitch : W.git ["checkout", "origin/" ++ (resolve homeDir getenv cl).siteBranchOpt]
      (resolve homeDir getenv cl).siteRepoOpt w1 = .ok (out2, w2))
    (hmake : getMakefile (W.readDir w2 (resolve homeDir getenv cl).siteRepoOpt)
      (resolve homeDir getenv cl) = .ok makefile)
    (hrestore : W.git ["checkout", stringsTrim out " \n\t\r"]
      (resolve homeDir getenv cl).siteRepoOpt w2 = .ok (out3, w3))
    (hname : stringsTrim out " \n\t\r" = active w0)
    (hcheckout : ∀ ref dir w o w', W.git ["checkout", ref] dir w = .ok (o, w') →
      active w' = ref) :
    main W homeDir getenv cl w0 =
        .done
          (printReport (moduleArg cl.args)
            (extract (moduleArg cl.args) (W.readLines w2 makefile)))
          [["rev-parse", "--abbrev-ref", "HEAD"],
            ["checkout", "origin/" ++ (resolve homeDir getenv cl).siteBranchOpt],
            ["checkout", stringsTrim out " \n\t\r"]]
          w3 ∧
      active w3 = active w0 := by
  constructor
  · simp only [main, hrev, hswitch, hmake, hrestore]
  · rw [hcheckout _ _ _ _ _ hrestore, hname]

/-- Instance of C9 in the toy world, started on reference `dev`. -/
theorem branch_restored_witness :
    main toyWorld "/home/u" (fun _ => "") ⟨none, none, none, ["foo"]⟩ "dev" =
        .done "[foo] Current tag: 7.x_1.0\n"
          [["rev-parse", "--abbrev-ref", "HEAD"], ["checkout", "origin/master"],
            ["checkout", "dev"]]
          "dev" ∧
      id "dev" = id "dev" :=
  branch_restored toyWorld id "/home/u" (fun _ => "") ⟨none, none, none, ["foo"]⟩
    "dev" "dev" "origin/master" "dev" "dev\n" "" "" "/home/u/Repos/ncaa-barcelona/barcelona.make"
    rfl rfl rfl rfl (by decide)
    (by
      intro ref dir w o w' h
      simp only [toyWorld, Except.ok.injEq, Prod.mk.injEq] at h
      exact h.2.symm)

end NcaaCheckver
